import Mathlib

/-!
Verification of the tool-management and agent loop of the `streamlit-ui`
repository, shallowly embedded in Lean 4.

The embedding follows `src/app/src/tool_manager.py` and
`src/app/src/agent.py`.  Python sets are modelled as duplicate-free lists
(membership is what the claims observe), Python dicts as association lists in
insertion order, and floating-point scores as integers counting tenths
(every score constant of the Python code — the keyword increments 1.0 and
0.5 and the thresholds 0.3, 0.4, 1.0 — is an exact multiple of 0.1, and the
float sums involved are exact, so the rescaling `Python score s = model
score s / 10` is faithful; semantic similarity values produced by the
external sentence-transformer model are treated as an oracle
`String → String → ℤ`, again in tenths, since the network weights are
environmental input).
External effects (the LLM completion endpoint, tool callbacks) are modelled
as total oracles; the `json.loads` decoding of each call\'s arguments string
— standard-library code whose failure precedes the zero-origin guard — is
modelled as an explicit failure-capable function threaded through
`process_message`, so the decode-error path of the loop body is part of the
model; logging is dropped.
-/

namespace StreamlitUI

/-- `src/app/src/tool_models.py`: the `Tool` pydantic model.  `parameters`
is an opaque JSON object; no code under verification inspects it, so it is
kept as an opaque string. -/
structure Tool where
  name : String
  description : String
  parameters : String
  strict : Bool
deriving DecidableEq, Repr

/-- Python `needle in haystack` substring test on lists of characters.
The empty needle is contained in every string, as in Python. -/
def listIsSub (needle : List Char) : List Char → Bool
  | [] => needle.isEmpty
  | c :: rest => needle.isPrefixOf (c :: rest) || listIsSub needle rest

/-- Python `needle in haystack` on strings. -/
def strContains (needle hay : String) : Bool :=
  listIsSub needle.data hay.data

/-- ASCII lower-casing of one character, as `str.lower()` acts on the ASCII
strings occurring in this code base. -/
def lowerChar (c : Char) : Char :=
  if 'A' ≤ c ∧ c ≤ 'Z' then Char.ofNat (c.toNat + 32) else c

/-- Python `str.lower()`. -/
def strLower (s : String) : String :=
  String.mk (s.data.map lowerChar)

/-- Helper of `pyWords`: scan the characters, collecting the current word in
reverse in the accumulator. -/
def wordsAux : List Char → List Char → List String
  | [], acc => if acc.isEmpty then [] else [String.mk acc.reverse]
  | c :: rest, acc =>
    if c.isWhitespace then
      (if acc.isEmpty then wordsAux rest []
       else String.mk acc.reverse :: wordsAux rest [])
    else wordsAux rest (c :: acc)

/-- Python `str.split()` with no argument: split on whitespace runs and
drop empty pieces. -/
def pyWords (s : String) : List String :=
  wordsAux s.data []

/-- Insert into a duplicate-free list modelling a Python `set.add`. -/
def insertName (l : List String) (n : String) : List String :=
  if n ∈ l then l else l ++ [n]

/-- Registry entry stored by `ToolManager.register_tool`. -/
structure ToolMeta where
  definition : Tool
  keywords : List String
  category : String
  description : String
deriving DecidableEq, Repr

/-- Python dict assignment `registry[name] = meta`: overwrite in place if the
key exists, otherwise append (insertion order). -/
def registerAssoc (reg : List (String × ToolMeta)) (n : String) (m : ToolMeta) :
    List (String × ToolMeta) :=
  if n ∈ reg.map Prod.fst then
    reg.map (fun p => if p.1 = n then (n, m) else p)
  else
    reg ++ [(n, m)]

/-- Python dict lookup `registry[name]` / `name in registry`. -/
def lookupName (reg : List (String × ToolMeta)) (n : String) : Option ToolMeta :=
  match reg with
  | [] => none
  | (k, m) :: rest => if k = n then some m else lookupName rest n

/-- State of `ToolManager` (`src/app/src/tool_manager.py`).  `model` is the
optional sentence-transformer, abstracted to a cosine-similarity oracle
taking the query and the tool name; `tool_embeddings` records which tools
have a stored embedding. -/
structure ToolManager where
  registry : List (String × ToolMeta)
  loaded_tools : List String
  always_loaded : List String
  model : Option (String → String → ℤ)
  tool_embeddings : List String

/-- `ToolManager.__init__`: empty registry, no loaded tools, and the
`search_tools` meta-tool pre-placed in `always_loaded` only. -/
def ToolManager.init (model : Option (String → String → ℤ)) : ToolManager :=
  { registry := []
    loaded_tools := []
    always_loaded := ["search_tools"]
    model := model
    tool_embeddings := [] }

/-- `ToolManager.register_tool`. -/
def ToolManager.register_tool (tm : ToolManager) (name : String) (tool : Tool)
    (keywords : List String) (category : String) (always_load : Bool) :
    ToolManager :=
  { tm with
    registry := registerAssoc tm.registry name
      { definition := tool, keywords := keywords, category := category,
        description := tool.description }
    always_loaded :=
      if always_load then insertName tm.always_loaded name else tm.always_loaded
    loaded_tools :=
      if always_load then insertName tm.loaded_tools name else tm.loaded_tools
    tool_embeddings :=
      if tm.model.isSome then insertName tm.tool_embeddings name
      else tm.tool_embeddings }

/-- `ToolManager.load_tools`: add each given name that is in the registry. -/
def ToolManager.load_tools (tm : ToolManager) (tool_names : List String) :
    ToolManager :=
  { tm with
    loaded_tools := tool_names.foldl
      (fun l n => if (lookupName tm.registry n).isSome then insertName l n else l)
      tm.loaded_tools }

/-- `ToolManager.unload_tools`: discard each given name unless it is
always-loaded. -/
def ToolManager.unload_tools (tm : ToolManager) (tool_names : List String) :
    ToolManager :=
  { tm with
    loaded_tools := tool_names.foldl
      (fun l n => if n ∈ tm.always_loaded then l else l.filter (fun x => x ≠ n))
      tm.loaded_tools }

/-- `ToolManager.clear_loaded_tools`: reset the loaded set to a copy of the
always-loaded set. -/
def ToolManager.clear_loaded_tools (tm : ToolManager) : ToolManager :=
  { tm with loaded_tools := tm.always_loaded }

/-- `ToolManager.get_active_tools`: definitions of the loaded names that are
in the registry. -/
def ToolManager.get_active_tools (tm : ToolManager) : List Tool :=
  tm.loaded_tools.filterMap (fun n => (lookupName tm.registry n).map (·.definition))

/-- One entry of the match list built by `ToolManager.search`. -/
structure SearchMatch where
  name : String
  description : String
  category : String
  score : ℤ
deriving DecidableEq, Repr

/-- The category filter: `if category and meta["category"] != category:
continue`. -/
def catOk (category : Option String) (c : String) : Bool :=
  match category with
  | some filter => c = filter
  | none => true

/-- Keyword score of one registry entry, in tenths: 1.0 (= 10) per keyword
occurring as a substring of the lowered query, plus 0.5 (= 5) if any query
word longer than three characters occurs in the lowered description. -/
def keywordScore (meta : ToolMeta) (query_lower : String)
    (query_words : List String) : ℤ :=
  (meta.keywords.foldl
      (fun s kw => if strContains (strLower kw) query_lower then s + 10 else s) 0)
    + (if !query_words.isEmpty
          && query_words.any (fun w => strContains w (strLower meta.description))
        then (5 : ℤ) else 0)

/-- The semantic branch of `search`: runs only when a model is present and
some embedding is stored; keeps entries with cosine similarity above
0.3 (= 3 tenths). -/
def semanticMatches (tm : ToolManager) (query : String)
    (category : Option String) : List SearchMatch :=
  match tm.model with
  | none => []
  | some sim =>
    if tm.tool_embeddings.isEmpty then []
    else
      tm.registry.filterMap (fun p =>
        if !(catOk category p.2.category) then none
        else if p.1 ∈ tm.tool_embeddings then
          let s := sim query p.1
          if s > 3 then
            some { name := p.1, description := p.2.description,
                   category := p.2.category, score := s }
          else none
        else none)

/-- The keyword-fallback branch of `search`. -/
def keywordMatches (tm : ToolManager) (query : String)
    (category : Option String) : List SearchMatch :=
  let query_lower := strLower query
  let query_words := (pyWords query_lower).filter (fun w => w.length > 3)
  tm.registry.filterMap (fun p =>
    if !(catOk category p.2.category) then none
    else
      let score := keywordScore p.2 query_lower query_words
      if score > 0 then
        some { name := p.1, description := p.2.description,
               category := p.2.category, score := score }
      else none)

/-- Stable insertion keeping scores descending: an element keeps its place
before later elements with an equal score (Python's `list.sort` is stable,
`reverse=True`). -/
def insertDesc (m : SearchMatch) : List SearchMatch → List SearchMatch
  | [] => [m]
  | x :: xs => if x.score > m.score then x :: insertDesc m xs else m :: x :: xs

/-- `matches.sort(key=lambda x: x["score"], reverse=True)`: stable
descending sort. -/
def sortDesc : List SearchMatch → List SearchMatch
  | [] => []
  | x :: xs => insertDesc x (sortDesc xs)

/-- The auto-load threshold of `search`, in tenths: 0.4 (= 4) whenever a
model is present and some embedding is stored
(`self.model and self.tool_embeddings`), 1.0 (= 10) otherwise — the
availability of semantic search decides the threshold, not the branch that
actually produced the scores. -/
def searchThreshold (tm : ToolManager) : ℤ :=
  if tm.model.isSome && !tm.tool_embeddings.isEmpty then (4 : ℤ) else 10

/-- `ToolManager.search`: semantic matches when available, keyword fallback
when they are empty, stable descending sort, `top_k` truncation, and
auto-loading of every result whose score reaches the threshold.  The JSON
serialisation of the result list is dropped; the list itself is returned. -/
def ToolManager.search (tm : ToolManager) (query : String)
    (category : Option String) (top_k : Nat) : List SearchMatch × ToolManager :=
  let sem := semanticMatches tm query category
  let found := if sem.isEmpty then keywordMatches tm query category else sem
  let results := (sortDesc found).take top_k
  let threshold := searchThreshold tm
  let tools_to_load :=
    (results.filter (fun m => m.score ≥ threshold)).map (fun m => m.name)
  (results, tm.load_tools tools_to_load)

/-- `ToolManager.get_search_tool`: the fixed `search_tools` meta-tool. -/
def ToolManager.get_search_tool (_tm : ToolManager) : Tool :=
  { name := "search_tools"
    description := "Search for and load tools by describing what you want to do. After searching, the matching tools will be automatically loaded and available for immediate use in your next action. You should search for tools and then use them in the same conversation turn when possible."
    parameters := "{query: string (required), category: enum [ui_management, data_viz, general]}"
    strict := true }

/-- The externally visible operations of `ToolManager` over which claim C1
quantifies. -/
inductive TMOp where
  | register (name : String) (tool : Tool) (keywords : List String)
      (category : String) (always_load : Bool)
  | search (query : String) (category : Option String) (top_k : Nat)
  | load (names : List String)
  | unload (names : List String)
  | clear
  deriving Repr

/-- One `ToolManager` operation. -/
def TMStep (tm : ToolManager) : TMOp → ToolManager
  | .register n t kw c al => tm.register_tool n t kw c al
  | .search q c k => (tm.search q c k).2
  | .load ns => tm.load_tools ns
  | .unload ns => tm.unload_tools ns
  | .clear => tm.clear_loaded_tools

/-- Run a sequence of `ToolManager` operations. -/
def runOps (tm : ToolManager) (ops : List TMOp) : ToolManager :=
  ops.foldl TMStep tm

/-- The registered names (keys of the registry dict). -/
def regNames (tm : ToolManager) : List String :=
  tm.registry.map Prod.fst


/-! ### The chat agent (`src/app/src/agent.py`)

`litellm.completion` is modelled as an oracle indexed by the iteration
counter; the `tool_calls` arguments string is kept opaque (a tool function
consumes the raw string, standing for the decoded kwargs), and tool
functions may fail, which models a Python exception raised during tool
execution.  The `on_tool_call` / `on_tool_result` observers have no
observable effect on the state and are dropped.  A ghost trace of the
`(name, origin)` pairs for which a tool function is actually invoked is
threaded through execution so that "no tool function is ever executed" is
expressible. -/

/-- One tool call emitted by the model (`tool_call.id`,
`tool_call.function.name`, `tool_call.function.arguments`). -/
structure ToolCall where
  id : String
  name : String
  arguments : String
deriving DecidableEq, Repr

/-- One choice of a completion: its message content and tool calls
(`None`/empty both modelled by `none`/`[]` as the code only tests
falsiness). -/
structure Choice where
  content : Option String
  tool_calls : List ToolCall
deriving DecidableEq, Repr

/-- A completion returned by `litellm.completion`. -/
structure Completion where
  choices : List Choice
deriving DecidableEq, Repr

/-- An entry of the agent's message history. -/
inductive Message where
  | system (content : String)
  | user (content : String)
  | assistant (content : Option String) (tool_calls : List ToolCall)
  | tool (tool_call_id : String) (content : String)
deriving DecidableEq, Repr

/-- The `function` part of a tool schema sent to the LLM. -/
structure FnSchema where
  name : String
  description : String
  parameters : String
deriving DecidableEq, Repr

/-- A tool schema together with its `origin` tag. -/
structure ToolSchema where
  func : FnSchema
  origin : String
deriving DecidableEq, Repr

/-- A registered tool function: takes the raw arguments, returns the result
string or fails (a raised Python exception carrying this message). -/
def ToolFn : Type := String → Except String String

/-- State of `ChatAgent` (the fields the verified claims observe). -/
structure ChatAgent where
  messages : List Message
  tools : List Tool
  max_iterations : Nat
  current_iteration : Nat
  tool_map : String → Option ToolFn
  mcp_servers : List (String × List FnSchema)
  tool_manager : Option ToolManager

/-- The local part of `ChatAgent.aggregate_tools`: with a tool manager, the
`search_tools` meta-tool followed by the active tools; otherwise the legacy
`self.tools` list.  Every entry is tagged `origin = "local"`. -/
def local_tool_schemas (ag : ChatAgent) : List ToolSchema :=
  match ag.tool_manager with
  | some tm =>
    (tm.get_search_tool :: tm.get_active_tools).map (fun t =>
      { func := { name := t.name, description := t.description,
                  parameters := t.parameters },
        origin := "local" })
  | none =>
    ag.tools.map (fun t =>
      { func := { name := t.name, description := t.description,
                  parameters := t.parameters },
        origin := "local" })

/-- The MCP part of `ChatAgent.aggregate_tools`: each configured server's
schemas tagged with the server name, servers in configured order. -/
def mcp_tool_schemas (ag : ChatAgent) : List ToolSchema :=
  ag.mcp_servers.flatMap (fun p => p.2.map (fun f => { func := f, origin := p.1 }))

/-- `ChatAgent.aggregate_tools`: local schemas before remote schemas. -/
def aggregate_tools (ag : ChatAgent) : List ToolSchema :=
  local_tool_schemas ag ++ mcp_tool_schemas ag

/-- The `origins` list computed for an incoming tool-call name: origins of
all schemas advertising that name, in aggregation order. -/
def originsOf (schemas : List ToolSchema) (name : String) : List String :=
  (schemas.filter (fun s => s.func.name = name)).map (fun s => s.origin)

/-- The per-call environment of one `process_message` run: the schemas are
aggregated once before the loop, and the callbacks are fixed arguments.
`json_decode` stands for the standard library\'s `json.loads` applied to a
call\'s arguments string (`kwargs = json.loads(tool_call.function.arguments)`
at the top of the per-call body): `.ok` carries the decoded kwargs (kept
opaque), `.error` the `str` of the raised `JSONDecodeError`. -/
structure CallEnv where
  schemas : List ToolSchema
  tool_map : String → Option ToolFn
  mcp_server_names : List String
  user_choice : Option (String → List String → String)
  tool_executor : Option (String → String → String → Except String String)
  json_decode : String → Except String String

/-- Origin resolution: `chosen_origin = origins[0]`, overridden by the
resolver callback only when more than one origin was found and a callback
was supplied. -/
def chooseOrigin (env : CallEnv) (name : String) (origins : List String) :
    String :=
  match env.user_choice with
  | some cb => if origins.length > 1 then cb name origins else origins.headD ""
  | none => origins.headD ""

/-- `ChatAgent._execute_tool`, instrumented with the ghost list of actually
invoked tool functions.  A `"local"` origin looks the name up in
`tool_map` (a missing binding is Python's `KeyError`, whose `str` is the
quoted key); any other origin looks the server up in `mcp_servers`
(`KeyError` again when absent), then requires a `tool_executor`
(`ValueError` otherwise) and defers to it. -/
def execute_tool (env : CallEnv) (name kwargs origin : String) :
    List (String × String) × Except String String :=
  if origin = "local" then
    match env.tool_map name with
    | none => ([], .error ("'" ++ name ++ "'"))
    | some f => ([(name, origin)], f kwargs)
  else if env.mcp_server_names.contains origin then
    match env.tool_executor with
    | none => ([], .error "tool_executor is required for MCP tool calls")
    | some ex => ([(name, origin)], ex origin name kwargs)
  else ([], .error ("'" ++ origin ++ "'"))

/-- The synthetic result for a call whose name no schema advertises. -/
def notFoundText (name : String) : String :=
  "Error: Tool '" ++ name ++ "' not found in available tools."

/-- Process the tool calls of one assistant turn in order.  For each call,
the arguments string is first decoded (`kwargs = json.loads(...)`, which
precedes the zero-origin guard in the source and raises on undecodable
input, aborting the batch); then a zero-origin name gets the synthetic
not-found result appended and processing continues; otherwise the tool runs
and its result is appended, while a raised exception aborts with the
pending error. -/
def processCalls (env : CallEnv) :
    List ToolCall → List Message → List (String × String) →
    List Message × List (String × String) × Option String
  | [], msgs, trace => (msgs, trace, none)
  | tc :: rest, msgs, trace =>
    match env.json_decode tc.arguments with
    | .error e => (msgs, trace, some e)
    | .ok kwargs =>
      let origins := originsOf env.schemas tc.name
      if origins.isEmpty then
        processCalls env rest (msgs ++ [.tool tc.id (notFoundText tc.name)]) trace
      else
        let chosen := chooseOrigin env tc.name origins
        match execute_tool env tc.name kwargs chosen with
        | (ran, .error e) => (msgs, trace ++ ran, some e)
        | (ran, .ok r) =>
          processCalls env rest (msgs ++ [.tool tc.id r]) (trace ++ ran)

/-- Outcome of one iteration of the `process_message` loop. -/
inductive IterOut where
  | errored (e : String)
  | finished (s : String)
  | next
deriving DecidableEq, Repr

/-- One iteration of the `process_message` loop body, from receiving the
completion on: the empty-choices guard, the no-tool-calls early return with
its empty-content guard, and otherwise the assistant message recording the
full call list followed by sequential execution of the calls. -/
def stepIter (env : CallEnv) (completion : Completion) (msgs : List Message)
    (trace : List (String × String)) :
    List Message × List (String × String) × IterOut :=
  match completion.choices with
  | [] => (msgs, trace, .errored "Model returned an empty response.")
  | choice :: _ =>
    if choice.tool_calls.isEmpty then
      let final := choice.content.getD ""
      if final = "" then
        (msgs, trace, .errored "Agent did not return a response content.")
      else
        (msgs ++ [.assistant (some final) []], trace, .finished final)
    else
      let msgs := msgs ++ [.assistant choice.content choice.tool_calls]
      match processCalls env choice.tool_calls msgs trace with
      | (msgs2, trace2, some e) => (msgs2, trace2, .errored e)
      | (msgs2, trace2, none) => (msgs2, trace2, .next)

/-- The `while self.current_iteration < self.max_iterations` loop.  `fuel`
is the number of remaining iterations and `iter` the Python
`current_iteration` counter; a caught exception returns
`f"An error occurred: {error}"` immediately and exhausted fuel returns the
fixed maximum-iterations message. -/
def runLoop (env : CallEnv) (completions : Nat → Completion)
    (msgs : List Message) (trace : List (String × String)) (iter : Nat) :
    Nat → String × List Message × List (String × String) × Nat
  | 0 => ("Maximum iterations reached without completion.", msgs, trace, iter)
  | fuel + 1 =>
    match stepIter env (completions iter) msgs trace with
    | (msgs2, trace2, .errored e) =>
      ("An error occurred: " ++ e, msgs2, trace2, iter + 1)
    | (msgs2, trace2, .finished s) => (s, msgs2, trace2, iter + 1)
    | (msgs2, trace2, .next) => runLoop env completions msgs2 trace2 (iter + 1) fuel

/-- The environment a `process_message` call fixes before its loop.
`json_decode` is the fixed `json.loads` of the Python standard library,
passed explicitly because its full grammar is standard-library behaviour
outside this repository; theorems quantify over it, and counterexamples
instantiate it only at inputs whose `json.loads` behaviour is documented. -/
def mkEnv (ag : ChatAgent)
    (user_choice : Option (String → List String → String))
    (tool_executor : Option (String → String → String → Except String String))
    (json_decode : String → Except String String) :
    CallEnv :=
  { schemas := aggregate_tools ag
    tool_map := ag.tool_map
    mcp_server_names := ag.mcp_servers.map Prod.fst
    user_choice := user_choice
    tool_executor := tool_executor
    json_decode := json_decode }

/-- `ChatAgent.process_message`: append the user message, aggregate the
schemas once, reset the iteration counter, and run the loop.  Returns the
reply, the updated agent, and the ghost execution trace. -/
def process_message (ag : ChatAgent) (user_input : String)
    (user_choice : Option (String → List String → String))
    (tool_executor : Option (String → String → String → Except String String))
    (json_decode : String → Except String String)
    (completions : Nat → Completion) :
    String × ChatAgent × List (String × String) :=
  let msgs := ag.messages ++ [.user user_input]
  let env := mkEnv ag user_choice tool_executor json_decode
  let out := runLoop env completions msgs [] 0 ag.max_iterations
  (out.1, { ag with messages := out.2.1, current_iteration := out.2.2.2 }, out.2.2.1)


/-! ### Basic lemmas about the set-like list operations -/

theorem mem_insertName {l : List String} {n m : String} :
    n ∈ insertName l m ↔ n ∈ l ∨ n = m := by
  unfold insertName
  by_cases h : m ∈ l
  · rw [if_pos h]
    constructor
    · exact Or.inl
    · rintro (hn | rfl)
      · exact hn
      · exact h
  · rw [if_neg h]
    simp

theorem mem_insertName_of_mem {l : List String} {n m : String} (h : n ∈ l) :
    n ∈ insertName l m :=
  mem_insertName.mpr (Or.inl h)

theorem self_mem_insertName {l : List String} {m : String} :
    m ∈ insertName l m :=
  mem_insertName.mpr (Or.inr rfl)

theorem lookupName_isSome_mem :
    ∀ {reg : List (String × ToolMeta)} {n : String},
      (lookupName reg n).isSome → n ∈ reg.map Prod.fst := by
  intro reg
  induction reg with
  | nil => intro n h; simp [lookupName] at h
  | cons p rest ih =>
    intro n h
    obtain ⟨k, m⟩ := p
    rw [lookupName] at h
    by_cases hk : k = n
    · simp [hk]
    · rw [if_neg hk] at h
      simp only [List.map_cons, List.mem_cons]
      exact Or.inr (ih h)

theorem mem_registerAssoc_of_mem {reg : List (String × ToolMeta)}
    {n k : String} {m : ToolMeta} (h : k ∈ reg.map Prod.fst) :
    k ∈ (registerAssoc reg n m).map Prod.fst := by
  unfold registerAssoc
  by_cases hn : n ∈ reg.map Prod.fst
  · rw [if_pos hn]
    rcases List.mem_map.mp h with ⟨p, hp, rfl⟩
    refine List.mem_map.mpr ⟨if p.1 = n then (n, m) else p, List.mem_map_of_mem _ hp, ?_⟩
    by_cases hpn : p.1 = n
    · rw [if_pos hpn, hpn]
    · rw [if_neg hpn]
  · rw [if_neg hn]
    simp only [List.map_append, List.mem_append]
    exact Or.inl h

theorem self_mem_registerAssoc {reg : List (String × ToolMeta)}
    {n : String} {m : ToolMeta} :
    n ∈ (registerAssoc reg n m).map Prod.fst := by
  unfold registerAssoc
  by_cases hn : n ∈ reg.map Prod.fst
  · rw [if_pos hn]
    rcases List.mem_map.mp hn with ⟨p, hp, hpn⟩
    refine List.mem_map.mpr ⟨if p.1 = n then (n, m) else p, List.mem_map_of_mem _ hp, ?_⟩
    rw [if_pos hpn]
  · rw [if_neg hn]
    simp

/-- Membership after `load_tools`: a name is loaded afterwards iff it was
loaded before or is a requested registered name. -/
theorem mem_load_tools {tm : ToolManager} :
    ∀ {names : List String} {n : String},
      n ∈ (tm.load_tools names).loaded_tools ↔
        n ∈ tm.loaded_tools ∨
          (n ∈ names ∧ (lookupName tm.registry n).isSome) := by
  have aux : ∀ (names : List String) (l : List String) (n : String),
      n ∈ names.foldl
          (fun l x => if (lookupName tm.registry x).isSome then insertName l x else l) l ↔
        n ∈ l ∨ (n ∈ names ∧ (lookupName tm.registry n).isSome) := by
    intro names
    induction names with
    | nil => intro l n; simp
    | cons a rest ih =>
      intro l n
      rw [List.foldl_cons, ih]
      by_cases ha : (lookupName tm.registry a).isSome
      · rw [if_pos ha, mem_insertName]
        constructor
        · rintro ((hl | rfl) | hr)
          · exact Or.inl hl
          · exact Or.inr ⟨List.mem_cons_self _ _, ha⟩
          · exact Or.inr ⟨List.mem_cons_of_mem _ hr.1, hr.2⟩
        · rintro (hl | ⟨hmem, hlook⟩)
          · exact Or.inl (Or.inl hl)
          · rcases List.mem_cons.mp hmem with rfl | hrest
            · exact Or.inl (Or.inr rfl)
            · exact Or.inr ⟨hrest, hlook⟩
      · rw [if_neg ha]
        constructor
        · rintro (hl | hr)
          · exact Or.inl hl
          · exact Or.inr ⟨List.mem_cons_of_mem _ hr.1, hr.2⟩
        · rintro (hl | ⟨hmem, hlook⟩)
          · exact Or.inl hl
          · rcases List.mem_cons.mp hmem with rfl | hrest
            · exact absurd hlook ha
            · exact Or.inr ⟨hrest, hlook⟩
  intro names n
  exact aux names tm.loaded_tools n

/-- Membership after `unload_tools`: a name survives iff it was loaded and
is either always-loaded or was not requested — in particular `unload_tools`
is a no-op on always-loaded names. -/
theorem mem_unload_tools {tm : ToolManager} :
    ∀ {names : List String} {n : String},
      n ∈ (tm.unload_tools names).loaded_tools ↔
        n ∈ tm.loaded_tools ∧ (n ∈ tm.always_loaded ∨ n ∉ names) := by
  have aux : ∀ (names : List String) (l : List String) (n : String),
      n ∈ names.foldl
          (fun l x => if x ∈ tm.always_loaded then l else l.filter (fun y => y ≠ x)) l ↔
        n ∈ l ∧ (n ∈ tm.always_loaded ∨ n ∉ names) := by
    intro names
    induction names with
    | nil => intro l n; simp
    | cons a rest ih =>
      intro l n
      rw [List.foldl_cons, ih]
      by_cases ha : a ∈ tm.always_loaded
      · rw [if_pos ha]
        constructor
        · rintro ⟨hl, halways | hrest⟩
          · exact ⟨hl, Or.inl halways⟩
          · refine ⟨hl, ?_⟩
            by_cases hna : n = a
            · exact Or.inl (hna ▸ ha)
            · exact Or.inr (by simp [hna, hrest])
        · rintro ⟨hl, halways | hmem⟩
          · exact ⟨hl, Or.inl halways⟩
          · exact ⟨hl, Or.inr (fun h => hmem (List.mem_cons_of_mem _ h))⟩
      · rw [if_neg ha]
        simp only [List.mem_filter, ne_eq, decide_eq_true_eq]
        constructor
        · rintro ⟨⟨hl, hna⟩, halways | hrest⟩
          · exact ⟨hl, Or.inl halways⟩
          · exact ⟨hl, Or.inr (by simp [hna, hrest])⟩
        · rintro ⟨hl, halways | hmem⟩
          · refine ⟨⟨hl, fun hna => ha (hna ▸ halways)⟩, Or.inl halways⟩
          · have hna : n ≠ a := fun h => hmem (h ▸ List.mem_cons_self _ _)
            exact ⟨⟨hl, hna⟩, Or.inr (fun h => hmem (List.mem_cons_of_mem _ h))⟩
  intro names n
  exact aux names tm.loaded_tools n


/-! ### The activation-state invariant (claim C1) -/

/-- The names auto-loaded by one `search` call: results of the truncated
list whose score reaches the threshold. -/
def searchAutoLoad (tm : ToolManager) (query : String)
    (category : Option String) (top_k : Nat) : List String :=
  (((tm.search query category top_k).1).filter
      (fun m => m.score ≥ searchThreshold tm)).map (fun m => m.name)

theorem search_snd_eq (tm : ToolManager) (query : String)
    (category : Option String) (top_k : Nat) :
    (tm.search query category top_k).2 =
      tm.load_tools (searchAutoLoad tm query category top_k) := rfl

/-- The invariant that actually holds of every reachable `ToolManager`
state: every always-loaded name is registered or is the pre-seeded
`"search_tools"`, and every loaded name is registered or always-loaded. -/
def ActivationInv (tm : ToolManager) : Prop :=
  (∀ n ∈ tm.always_loaded, n ∈ regNames tm ∨ n = "search_tools") ∧
  (∀ n ∈ tm.loaded_tools, n ∈ regNames tm ∨ n ∈ tm.always_loaded)

theorem ActivationInv_init (model : Option (String → String → ℤ)) :
    ActivationInv (ToolManager.init model) := by
  constructor
  · intro n hn
    right
    simpa [ToolManager.init] using hn
  · intro n hn
    simp [ToolManager.init] at hn

theorem TMStep_mem_regNames {tm : ToolManager} {op : TMOp} {k : String}
    (h : k ∈ regNames tm) : k ∈ regNames (TMStep tm op) := by
  cases op with
  | register n t kw c al => exact mem_registerAssoc_of_mem h
  | search q c tk => exact h
  | load ns => exact h
  | unload ns => exact h
  | clear => exact h

theorem TMStep_mem_always {tm : ToolManager} {op : TMOp} {k : String}
    (h : k ∈ tm.always_loaded) : k ∈ (TMStep tm op).always_loaded := by
  cases op with
  | register n t kw c al =>
    cases al
    · exact h
    · exact mem_insertName_of_mem h
  | search q c tk => exact h
  | load ns => exact h
  | unload ns => exact h
  | clear => exact h

theorem ActivationInv_step {tm : ToolManager} {op : TMOp}
    (h : ActivationInv tm) : ActivationInv (TMStep tm op) := by
  obtain ⟨hA, hB⟩ := h
  cases op with
  | register n t kw c al =>
    constructor
    · intro k hk
      have hk2 : k ∈ tm.always_loaded ∨ k = n := by
        cases al
        · exact Or.inl hk
        · exact mem_insertName.mp hk
      rcases hk2 with hk2 | rfl
      · rcases hA k hk2 with hr | hs
        · exact Or.inl (mem_registerAssoc_of_mem hr)
        · exact Or.inr hs
      · exact Or.inl self_mem_registerAssoc
    · intro k hk
      have hk2 : k ∈ tm.loaded_tools ∨ k = n := by
        cases al
        · exact Or.inl hk
        · exact mem_insertName.mp hk
      rcases hk2 with hk2 | rfl
      · rcases hB k hk2 with hr | hs
        · exact Or.inl (mem_registerAssoc_of_mem hr)
        · exact Or.inr (@TMStep_mem_always tm (.register n t kw c al) k hs)
      · exact Or.inl self_mem_registerAssoc
  | search q c tk =>
    constructor
    · exact hA
    · intro k hk
      rw [TMStep, search_snd_eq] at hk
      rcases mem_load_tools.mp hk with hk | ⟨_, hlook⟩
      · exact hB k hk
      · exact Or.inl (lookupName_isSome_mem hlook)
  | load ns =>
    constructor
    · exact hA
    · intro k hk
      rcases mem_load_tools.mp hk with hk | ⟨_, hlook⟩
      · exact hB k hk
      · exact Or.inl (lookupName_isSome_mem hlook)
  | unload ns =>
    constructor
    · exact hA
    · intro k hk
      exact hB k (mem_unload_tools.mp hk).1
  | clear =>
    constructor
    · exact hA
    · intro k hk
      exact Or.inr hk

theorem ActivationInv_runOps {tm : ToolManager} (h : ActivationInv tm) :
    ∀ ops : List TMOp, ActivationInv (runOps tm ops) := by
  intro ops
  induction ops generalizing tm with
  | nil => exact h
  | cons op rest ih => exact ih (ActivationInv_step h)

theorem alwaysSub_step {tm : ToolManager} {op : TMOp}
    (h : ∀ n ∈ tm.always_loaded, n ∈ tm.loaded_tools) :
    ∀ n ∈ (TMStep tm op).always_loaded, n ∈ (TMStep tm op).loaded_tools := by
  cases op with
  | register nm t kw c al =>
    intro n hn
    cases al
    · exact h n hn
    · rcases mem_insertName.mp hn with hn | rfl
      · exact mem_insertName_of_mem (h n hn)
      · exact self_mem_insertName
  | search q c tk =>
    intro n hn
    rw [TMStep, search_snd_eq]
    exact mem_load_tools.mpr (Or.inl (h n hn))
  | load ns =>
    intro n hn
    exact mem_load_tools.mpr (Or.inl (h n hn))
  | unload ns =>
    intro n hn
    exact mem_unload_tools.mpr ⟨h n hn, Or.inl hn⟩
  | clear =>
    intro n hn
    exact hn

theorem alwaysSub_runOps {tm : ToolManager}
    (h : ∀ n ∈ tm.always_loaded, n ∈ tm.loaded_tools) :
    ∀ ops : List TMOp, ∀ n ∈ (runOps tm ops).always_loaded,
      n ∈ (runOps tm ops).loaded_tools := by
  intro ops
  induction ops generalizing tm with
  | nil => exact h
  | cons op rest ih => exact ih (alwaysSub_step h)

/-- C1 (corrected).  The claimed chain
`always_active ⊆ currently_active ⊆ registered_names` does not hold as
stated (see `c1_activation_counterexample`); what every operation sequence
from construction preserves is: (1) the invariant `ActivationInv`
(always-loaded names are registered or the pre-seeded `"search_tools"`;
loaded names are registered or always-loaded); (2) `always_loaded` grows
monotonically at every step; (3) `unload_tools` keeps exactly the loaded
names that are always-loaded or were not requested — a no-op for
always-loaded names; (4) `always_loaded ⊆ loaded_tools` is established by
`clear_loaded_tools` and preserved by every subsequent operation. -/
theorem c1_activation_invariant :
    (∀ (model : Option (String → String → ℤ)) (ops : List TMOp),
        ActivationInv (runOps (ToolManager.init model) ops)) ∧
    (∀ (tm : ToolManager) (op : TMOp) (n : String),
        n ∈ tm.always_loaded → n ∈ (TMStep tm op).always_loaded) ∧
    (∀ (tm : ToolManager) (names : List String) (n : String),
        n ∈ (tm.unload_tools names).loaded_tools ↔
          n ∈ tm.loaded_tools ∧ (n ∈ tm.always_loaded ∨ n ∉ names)) ∧
    (∀ (tm : ToolManager) (ops : List TMOp) (n : String),
        n ∈ (runOps tm.clear_loaded_tools ops).always_loaded →
          n ∈ (runOps tm.clear_loaded_tools ops).loaded_tools) := by
  refine ⟨fun model ops => ActivationInv_runOps (ActivationInv_init model) ops,
    fun tm op n => TMStep_mem_always, fun tm names n => mem_unload_tools,
    fun tm ops n => alwaysSub_runOps (fun k hk => hk) ops n⟩

/-- C1 counterexample: immediately after construction the invariant
`always_active ⊆ currently_active` already fails — `"search_tools"` is
always-active but not currently active. -/
theorem c1_activation_counterexample :
    "search_tools" ∈ (ToolManager.init none).always_loaded ∧
      "search_tools" ∉ (ToolManager.init none).loaded_tools := by
  decide

/-- Witness instantiating `c1_activation_invariant` at concrete inputs. -/
theorem c1_activation_invariant_witness :
    ActivationInv (runOps (ToolManager.init none) [TMOp.clear]) ∧
    "search_tools" ∈ (TMStep (ToolManager.init none) TMOp.clear).always_loaded ∧
    "search_tools" ∈
      ((ToolManager.init none).clear_loaded_tools.unload_tools
          ["search_tools"]).loaded_tools ∧
    "search_tools" ∈
      (runOps (ToolManager.init none).clear_loaded_tools []).loaded_tools := by
  refine ⟨c1_activation_invariant.1 none [TMOp.clear],
    c1_activation_invariant.2.1 (ToolManager.init none) TMOp.clear
      "search_tools" (by decide),
    (c1_activation_invariant.2.2.1 (ToolManager.init none).clear_loaded_tools
        ["search_tools"] "search_tools").mpr ⟨by decide, Or.inl (by decide)⟩,
    c1_activation_invariant.2.2.2 (ToolManager.init none) [] "search_tools"
      (by decide)⟩


/-! ### Clear followed by get_active_tools (claim C9) -/

/-- C9 (corrected).  After `clear_loaded_tools()`, `get_active_tools()`
yields the definitions of exactly those always-loaded names that are
present in the registry — not of the whole always-loaded set: an
always-loaded name that was never registered (such as the pre-seeded
`"search_tools"`, whose definition lives outside the registry) yields no
definition.  This holds for every state, hence regardless of prior
search/load/unload history. -/
theorem c9_clear_then_active (tm : ToolManager) (t : Tool) :
    t ∈ tm.clear_loaded_tools.get_active_tools ↔
      ∃ n ∈ tm.always_loaded,
        (lookupName tm.registry n).map (·.definition) = some t := by
  simp only [ToolManager.get_active_tools, ToolManager.clear_loaded_tools,
    List.mem_filterMap]

/-- C9 counterexample: on a freshly constructed manager,
`clear_loaded_tools()` then `get_active_tools()` yields no definition at
all although the always-loaded set contains `"search_tools"` — fewer tools
than the claim demands. -/
theorem c9_counterexample :
    (ToolManager.init none).clear_loaded_tools.get_active_tools = [] ∧
      (ToolManager.init none).clear_loaded_tools.always_loaded =
        ["search_tools"] := by
  decide

/-! ### Keyword search scenario (claim C2) -/

/-- The `create_page` tool exactly as built by
`UIToolExecutor.get_tools` in `src/app/src/ui_tools.py`. -/
def create_page_tool : Tool :=
  { name := "create_page"
    description := "Create a new page in the application sidebar."
    parameters := "{title: string (required), icon: string (emoji)}"
    strict := true }

/-- A manager with no embedding model whose registry contains `create_page`
registered under the keyword `"create page"` (the default keyword
`tool.name.replace("_", " ")` chosen by `ChatAgent.add_tool_definition`). -/
def tmCreatePage : ToolManager :=
  (ToolManager.init none).register_tool "create_page" create_page_tool
    ["create page"] "general" false

/-- C2 counterexample: `search("create a page")` on that registry returns
`create_page` with score 0.5 (= 5 tenths), *not* a score ≥ 1.0, and does
not auto-load it, so `get_active_tools()` stays empty. -/
theorem c2_counterexample :
    (tmCreatePage.search "create a page" none 3).1 =
        [{ name := "create_page"
           description := "Create a new page in the application sidebar."
           category := "general", score := 5 }] ∧
      ¬ ((5 : ℤ) ≥ 10) ∧
      "create_page" ∉ (tmCreatePage.search "create a page" none 3).2.loaded_tools ∧
      (tmCreatePage.search "create a page" none 3).2.get_active_tools = [] := by
  decide

/-- C2 (corrected).  Keyword matching is a substring test, and
`"create page"` is not a substring of `"create a page"`, so there is no
exact keyword hit; the only score contribution is the 0.5 description-word
bonus (`"create"` occurs in the lowered description).  The resulting score
0.5 (= 5 tenths) is below the keyword auto-load threshold 1.0 (= 10), so
the tool is returned but not auto-loaded and `get_active_tools()` does not
include it. -/
theorem c2_keyword_fallback :
    strContains "create page" "create a page" = false ∧
      strContains "create"
        (strLower "Create a new page in the application sidebar.") = true ∧
      (tmCreatePage.search "create a page" none 3).1 =
        [{ name := "create_page"
           description := "Create a new page in the application sidebar."
           category := "general", score := 5 }] ∧
      searchThreshold tmCreatePage = 10 ∧
      (tmCreatePage.search "create a page" none 3).2.loaded_tools = [] ∧
      (tmCreatePage.search "create a page" none 3).2.get_active_tools = [] := by
  decide

/-! ### Auto-loading on search (claim C3) -/

theorem lookupName_isSome_of_mem :
    ∀ {reg : List (String × ToolMeta)} {n : String},
      n ∈ reg.map Prod.fst → (lookupName reg n).isSome := by
  intro reg
  induction reg with
  | nil => intro n h; simp at h
  | cons p rest ih =>
    intro n h
    obtain ⟨k, m⟩ := p
    rw [lookupName]
    by_cases hk : k = n
    · rw [if_pos hk]
      rfl
    · rw [if_neg hk]
      refine ih ?_
      simp only [List.map_cons, List.mem_cons] at h
      rcases h with rfl | h
      · exact absurd rfl hk
      · exact h

theorem mem_insertDesc {x m : SearchMatch} :
    ∀ {l : List SearchMatch}, m ∈ insertDesc x l → m = x ∨ m ∈ l := by
  intro l
  induction l with
  | nil =>
    intro h
    rw [insertDesc] at h
    exact Or.inl (List.mem_singleton.mp h)
  | cons a rest ih =>
    intro h
    rw [insertDesc] at h
    by_cases ha : a.score > x.score
    · rw [if_pos ha] at h
      rcases List.mem_cons.mp h with rfl | h
      · exact Or.inr (List.mem_cons_self _ _)
      · rcases ih h with rfl | h
        · exact Or.inl rfl
        · exact Or.inr (List.mem_cons_of_mem _ h)
    · rw [if_neg ha] at h
      rcases List.mem_cons.mp h with rfl | h
      · exact Or.inl rfl
      · exact Or.inr h

theorem mem_sortDesc {m : SearchMatch} :
    ∀ {l : List SearchMatch}, m ∈ sortDesc l → m ∈ l := by
  intro l
  induction l with
  | nil => intro h; exact absurd h (by simp [sortDesc])
  | cons a rest ih =>
    intro h
    rw [sortDesc] at h
    rcases mem_insertDesc h with rfl | h
    · exact List.mem_cons_self _ _
    · exact List.mem_cons_of_mem _ (ih h)

theorem name_mem_semanticMatches {tm : ToolManager} {query : String}
    {category : Option String} {m : SearchMatch}
    (h : m ∈ semanticMatches tm query category) : m.name ∈ regNames tm := by
  unfold semanticMatches at h
  cases hmod : tm.model with
  | none => rw [hmod] at h; simp at h
  | some sim =>
    rw [hmod] at h
    simp only [] at h
    by_cases he : tm.tool_embeddings.isEmpty
    · rw [if_pos he] at h
      simp at h
    · rw [if_neg he] at h
      rcases List.mem_filterMap.mp h with ⟨p, hp, hf⟩
      by_cases h1 : !(catOk category p.2.category)
      · rw [if_pos h1] at hf
        simp at hf
      · rw [if_neg h1] at hf
        by_cases h2 : p.1 ∈ tm.tool_embeddings
        · rw [if_pos h2] at hf
          by_cases h3 : sim query p.1 > 3
          · rw [if_pos h3] at hf
            rw [Option.some_inj] at hf
            subst hf
            exact List.mem_map_of_mem Prod.fst hp
          · rw [if_neg h3] at hf
            simp at hf
        · rw [if_neg h2] at hf
          simp at hf

theorem name_mem_keywordMatches {tm : ToolManager} {query : String}
    {category : Option String} {m : SearchMatch}
    (h : m ∈ keywordMatches tm query category) : m.name ∈ regNames tm := by
  unfold keywordMatches at h
  rcases List.mem_filterMap.mp h with ⟨p, hp, hf⟩
  by_cases h1 : !(catOk category p.2.category)
  · rw [if_pos h1] at hf
    simp at hf
  · rw [if_neg h1] at hf
    by_cases h2 : keywordScore p.2 (strLower query)
        ((pyWords (strLower query)).filter (fun w => w.length > 3)) > 0
    · rw [if_pos h2] at hf
      rw [Option.some_inj] at hf
      subst hf
      exact List.mem_map_of_mem Prod.fst hp
    · rw [if_neg h2] at hf
      simp at hf

/-- The match list whose sorted truncation `search` returns: the semantic
matches, or the keyword matches when there are none. -/
def searchMatchList (tm : ToolManager) (query : String)
    (category : Option String) : List SearchMatch :=
  if (semanticMatches tm query category).isEmpty then
    keywordMatches tm query category
  else semanticMatches tm query category

theorem search_fst_eq (tm : ToolManager) (query : String)
    (category : Option String) (top_k : Nat) :
    (tm.search query category top_k).1 =
      (sortDesc (searchMatchList tm query category)).take top_k := rfl

/-- Every name auto-loaded by `search` is a registry key. -/
theorem searchAutoLoad_registered {tm : ToolManager} {query : String}
    {category : Option String} {top_k : Nat} {n : String}
    (h : n ∈ searchAutoLoad tm query category top_k) :
    (lookupName tm.registry n).isSome := by
  unfold searchAutoLoad at h
  rcases List.mem_map.mp h with ⟨m, hm, rfl⟩
  have hm2 : m ∈ (tm.search query category top_k).1 :=
    (List.mem_filter.mp hm).1
  rw [search_fst_eq] at hm2
  have hm3 : m ∈ searchMatchList tm query category :=
    mem_sortDesc (List.mem_of_mem_take hm2)
  refine lookupName_isSome_of_mem ?_
  unfold searchMatchList at hm3
  by_cases he : (semanticMatches tm query category).isEmpty
  · rw [if_pos he] at hm3
    exact name_mem_keywordMatches hm3
  · rw [if_neg he] at hm3
    exact name_mem_semanticMatches hm3

/-- C3 (corrected).  A name is loaded after `search` iff it was loaded
before or appears in the truncated result list with a score at least
`searchThreshold`, which is 0.4 (= 4 tenths) whenever the manager has a
model *and* a nonempty embedding table — even when the scores were produced
by the keyword fallback because the semantic pass matched nothing — and
1.0 (= 10) only when semantic search is unavailable altogether. -/
theorem c3_search_autoload (tm : ToolManager) (query : String)
    (category : Option String) (top_k : Nat) (n : String) :
    n ∈ ((tm.search query category top_k).2).loaded_tools ↔
      n ∈ tm.loaded_tools ∨ n ∈ searchAutoLoad tm query category top_k := by
  rw [search_snd_eq, mem_load_tools]
  constructor
  · rintro (h | ⟨h, _⟩)
    · exact Or.inl h
    · exact Or.inr h
  · rintro (h | h)
    · exact Or.inl h
    · exact Or.inr ⟨h, searchAutoLoad_registered h⟩

/-- A manager with a similarity oracle whose value 0.2 (= 2 tenths) never
exceeds the 0.3 semantic cut-off, holding one registered tool with an
embedding. -/
def tmSemMiss : ToolManager :=
  (ToolManager.init (some (fun _ _ => 2))).register_tool "t"
    { name := "t", description := "page stuff", parameters := "",
      strict := true } ["kw"] "general" false

/-- C3 counterexample: with a model present and an embedding stored, a
semantic pass that matches nothing (similarity 0.2 ≤ 0.3) falls back to
keyword scoring, yet the auto-load threshold stays 0.4: the keyword score
0.5 (= 5 tenths) auto-loads the tool, although the claim says
keyword-fallback scores require 1.0 for activation. -/
theorem c3_counterexample :
    semanticMatches tmSemMiss "page" none = [] ∧
      (tmSemMiss.search "page" none 3).1 =
        [{ name := "t", description := "page stuff", category := "general",
           score := 5 }] ∧
      searchThreshold tmSemMiss = 4 ∧
      ¬ ((5 : ℤ) ≥ 10) ∧
      "t" ∈ (tmSemMiss.search "page" none 3).2.loaded_tools := by
  decide


/-! ### Lemmas about one batch of tool calls -/

/-- The instrumented outcome of dispatching one tool call: the ghost list of
invoked functions, and the result — the decode error when the arguments
string does not decode (that happens before the origins guard), the
synthetic not-found text when no schema advertises the name, otherwise
whatever `execute_tool` produces. -/
def callRes (env : CallEnv) (tc : ToolCall) :
    List (String × String) × Except String String :=
  match env.json_decode tc.arguments with
  | .error e => ([], Except.error e)
  | .ok kwargs =>
    let origins := originsOf env.schemas tc.name
    if origins.isEmpty then ([], Except.ok (notFoundText tc.name))
    else execute_tool env tc.name kwargs (chooseOrigin env tc.name origins)

/-- The result string appended for a call that did not raise. -/
def callResultStr (env : CallEnv) (tc : ToolCall) : String :=
  match (callRes env tc).2 with
  | .ok r => r
  | .error _ => ""

theorem exists_ok_of_isOk {e : Except String String} (h : e.isOk) :
    ∃ k, e = Except.ok k := by
  cases e with
  | ok a => exact ⟨a, rfl⟩
  | error a => simp [Except.isOk, Except.toBool] at h

/-- When every call in the batch has zero origins and decodable arguments,
`processCalls` appends one not-found tool message per call, in order,
invokes no tool function, and finishes the batch without an exception. -/
theorem processCalls_allNotFound (env : CallEnv) :
    ∀ {tcs : List ToolCall}, ∀ msgs trace,
      (∀ tc ∈ tcs, (originsOf env.schemas tc.name).isEmpty ∧
        (env.json_decode tc.arguments).isOk) →
      processCalls env tcs msgs trace =
        (msgs ++ tcs.map (fun tc => Message.tool tc.id (notFoundText tc.name)),
         trace, none) := by
  intro tcs
  induction tcs with
  | nil => intro msgs trace _; simp [processCalls]
  | cons tc rest ih =>
    intro msgs trace h
    have htc := (h tc (List.mem_cons_self _ _)).1
    rcases exists_ok_of_isOk (h tc (List.mem_cons_self _ _)).2 with ⟨kw, hkw⟩
    have hrest := fun x hx => h x (List.mem_cons_of_mem _ hx)
    simp only [processCalls, hkw, htc, if_true]
    rw [ih _ trace hrest]
    simp

/-- `processCalls` handles a prefix of successful calls, appending exactly
one tool message per handled call in emission order; when it reports no
exception the prefix is the whole batch. -/
theorem processCalls_prefix (env : CallEnv) :
    ∀ (tcs : List ToolCall) (msgs : List Message)
      (trace : List (String × String)),
      ∃ pre post o tr,
        tcs = pre ++ post ∧
        (∀ tc ∈ pre, (callRes env tc).2.isOk) ∧
        processCalls env tcs msgs trace =
          (msgs ++ pre.map (fun tc => Message.tool tc.id (callResultStr env tc)),
           tr, o) ∧
        (o = none → post = []) := by
  intro tcs
  induction tcs with
  | nil =>
    intro msgs trace
    exact ⟨[], [], none, trace, by simp, by simp, by simp [processCalls],
      fun _ => rfl⟩
  | cons tc rest ih =>
    intro msgs trace
    cases hdec : env.json_decode tc.arguments with
    | error e =>
      refine ⟨[], tc :: rest, some e, trace, by simp, by simp, ?_,
        by intro h; exact absurd h (by simp)⟩
      simp only [processCalls, hdec]
      simp
    | ok kw =>
      by_cases h1 : (originsOf env.schemas tc.name).isEmpty
      · have hcr : callRes env tc = ([], Except.ok (notFoundText tc.name)) := by
          simp [callRes, hdec, h1]
        have hstr : callResultStr env tc = notFoundText tc.name := by
          simp [callResultStr, hcr]
        rcases ih (msgs ++ [Message.tool tc.id (notFoundText tc.name)]) trace with
          ⟨pre, post, o, tr, heq, hok, hpc, himp⟩
        refine ⟨tc :: pre, post, o, tr, by simp [heq], ?_, ?_, himp⟩
        · intro x hx
          rcases List.mem_cons.mp hx with rfl | hx
          · simp [hcr, Except.isOk, Except.toBool]
          · exact hok x hx
        · simp only [processCalls, hdec, h1, if_true]
          rw [hpc]
          simp [hstr]
      · rcases hex : execute_tool env tc.name kw
            (chooseOrigin env tc.name (originsOf env.schemas tc.name)) with
          ⟨ran, res⟩
        have hcr : callRes env tc = (ran, res) := by
          simp [callRes, hdec, h1, hex]
        cases res with
        | error e =>
          refine ⟨[], tc :: rest, some e, trace ++ ran, by simp, by simp, ?_,
            by intro h; exact absurd h (by simp)⟩
          simp only [processCalls, hdec, h1, if_false, hex]
          simp
        | ok r =>
          have hstr : callResultStr env tc = r := by
            simp [callResultStr, hcr]
          rcases ih (msgs ++ [Message.tool tc.id r]) (trace ++ ran) with
            ⟨pre, post, o, tr, heq, hok, hpc, himp⟩
          refine ⟨tc :: pre, post, o, tr, by simp [heq], ?_, ?_, himp⟩
          · intro x hx
            rcases List.mem_cons.mp hx with rfl | hx
            · simp [hcr, Except.isOk, Except.toBool]
            · exact hok x hx
          · simp only [processCalls, hdec, h1, if_false, hex]
            rw [hpc]
            simp [hstr]


/-- Loop-level lemma for claim C4: when every completion carries only tool
calls with zero origins, the loop runs its full fuel, never invokes a tool
function, answers every call with the synthetic not-found tool message, and
ends with the fixed maximum-iterations message. -/
theorem runLoop_allNotFound (env : CallEnv) (completions : Nat → Completion)
    (H : ∀ k, ∃ ch t, (completions k).choices = ch :: t ∧
        ch.tool_calls ≠ [] ∧
        ∀ tc ∈ ch.tool_calls, originsOf env.schemas tc.name = [] ∧
          (env.json_decode tc.arguments).isOk) :
    ∀ (fuel : Nat) (msgs : List Message) (trace : List (String × String))
      (iter : Nat),
      (runLoop env completions msgs trace iter fuel).1 =
          "Maximum iterations reached without completion." ∧
        (runLoop env completions msgs trace iter fuel).2.2.1 = trace ∧
        (runLoop env completions msgs trace iter fuel).2.2.2 = iter + fuel ∧
        (∃ suf, (runLoop env completions msgs trace iter fuel).2.1 =
          msgs ++ suf) ∧
        ∀ j < fuel, ∀ ch t, (completions (iter + j)).choices = ch :: t →
          ∀ tc ∈ ch.tool_calls,
            Message.tool tc.id (notFoundText tc.name) ∈
              (runLoop env completions msgs trace iter fuel).2.1 := by
  intro fuel
  induction fuel with
  | zero =>
    intro msgs trace iter
    refine ⟨rfl, rfl, rfl, ⟨[], by simp [runLoop]⟩, ?_⟩
    intro j hj
    exact absurd hj (Nat.not_lt_zero j)
  | succ fuel ih =>
    intro msgs trace iter
    rcases H iter with ⟨ch, t, hch, hne, hzero⟩
    have hstep : stepIter env (completions iter) msgs trace =
        (msgs ++ [Message.assistant ch.content ch.tool_calls] ++
            ch.tool_calls.map
              (fun tc => Message.tool tc.id (notFoundText tc.name)),
         trace, IterOut.next) := by
      simp only [stepIter, hch]
      rw [if_neg (by simpa using hne)]
      rw [processCalls_allNotFound env _ _
        (fun tc htc => ⟨by rw [(hzero tc htc).1]; rfl, (hzero tc htc).2⟩)]
    have hloop : runLoop env completions msgs trace iter (fuel + 1) =
        runLoop env completions
          (msgs ++ [Message.assistant ch.content ch.tool_calls] ++
            ch.tool_calls.map
              (fun tc => Message.tool tc.id (notFoundText tc.name)))
          trace (iter + 1) fuel := by
      rw [runLoop, hstep]
    rcases ih (msgs ++ [Message.assistant ch.content ch.tool_calls] ++
        ch.tool_calls.map (fun tc => Message.tool tc.id (notFoundText tc.name)))
        trace (iter + 1) with ⟨hres, htr, hit, ⟨suf, hsuf⟩, hmem⟩
    rw [hloop]
    refine ⟨hres, htr, by rw [hit]; omega, ?_, ?_⟩
    · exact ⟨[Message.assistant ch.content ch.tool_calls] ++
        ch.tool_calls.map (fun tc => Message.tool tc.id (notFoundText tc.name))
          ++ suf, by rw [hsuf]; simp⟩
    · intro j hj ch2 t2 hch2 tc htc
      cases j with
      | zero =>
        rw [Nat.add_zero] at hch2
        rw [hch] at hch2
        obtain rfl : ch = ch2 := (List.cons.injEq _ _ _ _ ▸ hch2).1
        rw [hsuf]
        have : Message.tool tc.id (notFoundText tc.name) ∈
            ch.tool_calls.map
              (fun tc => Message.tool tc.id (notFoundText tc.name)) :=
          List.mem_map_of_mem _ htc
        simp only [List.append_assoc, List.mem_append]
        right; right; left
        exact this
      | succ j =>
        have : iter + (j + 1) = iter + 1 + j := by omega
        rw [this] at hch2
        exact hmem j (Nat.lt_of_succ_lt_succ hj) ch2 t2 hch2 tc htc

/-- C4 (corrected).  Provided every zero-origin call\'s arguments string
also decodes as JSON — `json.loads(arguments)` runs *before* the
zero-origin guard, so an undecodable arguments string aborts the run with
the decode-error string instead (see `c4_counterexample`) — `process_message`
never invokes a tool function (the ghost execution trace stays empty),
appends the synthetic `"Error: Tool \'<name>\' not found in available
tools."` tool message for every such call without raising, keeps looping,
and after `max_iterations` iterations returns the fixed maximum-iterations
message. -/
theorem c4_unknown_tools_loop (ag : ChatAgent) (user_input : String)
    (user_choice : Option (String → List String → String))
    (tool_executor : Option (String → String → String → Except String String))
    (json_decode : String → Except String String)
    (completions : Nat → Completion)
    (H : ∀ k, ∃ ch t, (completions k).choices = ch :: t ∧
        ch.tool_calls ≠ [] ∧
        ∀ tc ∈ ch.tool_calls, originsOf (aggregate_tools ag) tc.name = [] ∧
          (json_decode tc.arguments).isOk) :
    (process_message ag user_input user_choice tool_executor json_decode
          completions).1 =
        "Maximum iterations reached without completion." ∧
      (process_message ag user_input user_choice tool_executor json_decode
          completions).2.2 = [] ∧
      ∀ k < ag.max_iterations, ∀ ch t, (completions k).choices = ch :: t →
        ∀ tc ∈ ch.tool_calls,
          Message.tool tc.id (notFoundText tc.name) ∈
            (process_message ag user_input user_choice tool_executor
                json_decode completions).2.1.messages := by
  rcases runLoop_allNotFound (mkEnv ag user_choice tool_executor json_decode)
      completions H ag.max_iterations
      (ag.messages ++ [Message.user user_input]) [] 0 with
    ⟨hres, htr, _, _, hmem⟩
  refine ⟨hres, htr, ?_⟩
  intro k hk ch t hch tc htc
  exact hmem k hk ch t (by simpa using hch) tc htc


/-- Concrete agent used by the closed witnesses: no tools bound, no MCP
servers, no tool manager, two loop iterations. -/
def agFixture : ChatAgent :=
  { messages := [Message.system "You are an autonomous AI assistant with access to tools."]
    tools := []
    max_iterations := 2
    current_iteration := 0
    tool_map := fun _ => none
    mcp_servers := []
    tool_manager := none }

/-- A completion stream that always asks for the unregistered tool
`ghost`. -/
def complGhost : Nat → Completion := fun _ =>
  { choices := [{ content := none,
                  tool_calls := [{ id := "call_1", name := "ghost",
                                   arguments := "" }] }] }

/-- A decoder that succeeds on every input: `json.loads` on a run whose
arguments strings are all valid JSON (the decoded kwargs stay opaque). -/
def jsonDecodeOk : String → Except String String := fun s => Except.ok s

/-- `json.loads` on the inputs the counterexamples exercise: the empty
string is not valid JSON and raises
`json.JSONDecodeError`, whose `str` is
`"Expecting value: line 1 column 1 (char 0)"`. -/
def jsonDecodeEmptyFails : String → Except String String := fun s =>
  if s = "" then Except.error "Expecting value: line 1 column 1 (char 0)"
  else Except.ok s

/-- Witness instantiating `c4_unknown_tools_loop` on a concrete run with
decodable arguments. -/
theorem c4_unknown_tools_loop_witness :
    (process_message agFixture "hi" none none jsonDecodeOk complGhost).1 =
        "Maximum iterations reached without completion." ∧
      (process_message agFixture "hi" none none jsonDecodeOk
          complGhost).2.2 = [] ∧
      ∀ k < agFixture.max_iterations, ∀ ch t,
        (complGhost k).choices = ch :: t →
        ∀ tc ∈ ch.tool_calls,
          Message.tool tc.id (notFoundText tc.name) ∈
            (process_message agFixture "hi" none none jsonDecodeOk
                complGhost).2.1.messages :=
  c4_unknown_tools_loop agFixture "hi" none none jsonDecodeOk complGhost
    (fun _ => ⟨_, _, rfl, by decide, by decide⟩)

/-- C4 counterexample: the run of `complGhost` satisfies the claim\'s
premise — every completion carries only the zero-origin call `ghost` — yet
with the undecodable arguments string `""` the program aborts at
`json.loads` (which precedes the zero-origin guard) and returns the
decode-error string: the not-found tool message is never appended and the
maximum-iterations message is never reached. -/
theorem c4_counterexample :
    originsOf (aggregate_tools agFixture) "ghost" = [] ∧
      (process_message agFixture "hi" none none jsonDecodeEmptyFails
          complGhost).1 =
        "An error occurred: Expecting value: line 1 column 1 (char 0)" ∧
      (process_message agFixture "hi" none none jsonDecodeEmptyFails
          complGhost).1 ≠
        "Maximum iterations reached without completion." ∧
      Message.tool "call_1" (notFoundText "ghost") ∉
        (process_message agFixture "hi" none none jsonDecodeEmptyFails
            complGhost).2.1.messages := by
  decide

/-- C5 (confirmed).  When the first completion carries no tool calls and
non-empty content, `process_message` terminates after exactly one iteration
(`current_iteration` ends at 1), returns that content verbatim, and the
history grows by exactly one user entry and one assistant entry carrying
the returned content. -/
theorem c5_simple_completion (ag : ChatAgent) (user_input : String)
    (user_choice : Option (String → List String → String))
    (tool_executor : Option (String → String → String → Except String String))
    (json_decode : String → Except String String)
    (completions : Nat → Completion) (ch : Choice) (t : List Choice)
    (c : String)
    (hch : (completions 0).choices = ch :: t)
    (hcalls : ch.tool_calls = [])
    (hcontent : ch.content = some c)
    (hc : c ≠ "")
    (hmax : 1 ≤ ag.max_iterations) :
    process_message ag user_input user_choice tool_executor json_decode
        completions =
      (c, { ag with
              messages := ag.messages ++
                [Message.user user_input, Message.assistant (some c) []]
              current_iteration := 1 }, []) := by
  obtain ⟨m, hm⟩ : ∃ m, ag.max_iterations = m + 1 :=
    ⟨ag.max_iterations - 1, by omega⟩
  have hstep : stepIter (mkEnv ag user_choice tool_executor json_decode)
      (completions 0)
      (ag.messages ++ [Message.user user_input]) [] =
      (ag.messages ++ [Message.user user_input] ++
          [Message.assistant (some c) []], [], IterOut.finished c) := by
    simp only [stepIter, hch, hcalls, hcontent, List.isEmpty_nil, if_true,
      Option.getD_some]
    rw [if_neg hc]
  simp only [process_message, hm, runLoop, hstep]
  simp [List.append_assoc]

/-- Witness instantiating `c5_simple_completion` on a concrete run. -/
theorem c5_simple_completion_witness :
    process_message agFixture "hello" none none jsonDecodeOk
        (fun _ => { choices := [{ content := some "Hi there!",
                                  tool_calls := [] }] }) =
      ("Hi there!",
       { agFixture with
           messages := agFixture.messages ++
             [Message.user "hello", Message.assistant (some "Hi there!") []]
           current_iteration := 1 }, []) :=
  c5_simple_completion agFixture "hello" none none jsonDecodeOk _ _ []
    "Hi there!" rfl rfl rfl (by decide) (by decide)

/-- C6 (confirmed).  Every modelled exception site of the per-iteration
body — the empty-choices protocol error, the empty-final-content error, a
tool function raising during execution, and the `ValueError` raised when a
remote-origin tool is dispatched with no `tool_executor` — surfaces as an
`IterOut.errored` outcome, and any `IterOut.errored` outcome makes the loop
return the error-describing string `"An error occurred: ..."` immediately,
whatever fuel remains.  `process_message` is a total function of its
oracles, so no exception ever propagates to the caller. -/
theorem c6_exception_aborts :
    (∀ (env : CallEnv) (completions : Nat → Completion) (msgs : List Message)
        (trace : List (String × String)) (iter fuel : Nat) (e : String)
        (msgs2 : List Message) (trace2 : List (String × String)),
        stepIter env (completions iter) msgs trace =
          (msgs2, trace2, IterOut.errored e) →
        runLoop env completions msgs trace iter (fuel + 1) =
          ("An error occurred: " ++ e, msgs2, trace2, iter + 1)) ∧
    (∀ (env : CallEnv) (c : Completion) (msgs : List Message)
        (trace : List (String × String)), c.choices = [] →
        stepIter env c msgs trace =
          (msgs, trace, IterOut.errored "Model returned an empty response.")) ∧
    (∀ (env : CallEnv) (c : Completion) (msgs : List Message)
        (trace : List (String × String)) (ch : Choice) (t : List Choice),
        c.choices = ch :: t → ch.tool_calls = [] → ch.content.getD "" = "" →
        stepIter env c msgs trace =
          (msgs, trace,
           IterOut.errored "Agent did not return a response content.")) ∧
    (∀ (env : CallEnv) (name args : String) (f : ToolFn) (e : String),
        env.tool_map name = some f → f args = Except.error e →
        execute_tool env name args "local" =
          ([(name, "local")], Except.error e)) ∧
    (∀ (env : CallEnv) (name args origin : String), origin ≠ "local" →
        env.mcp_server_names.contains origin = true →
        env.tool_executor = none →
        execute_tool env name args origin =
          ([], Except.error "tool_executor is required for MCP tool calls")) := by
  refine ⟨?_, ?_, ?_, ?_, ?_⟩
  · intro env completions msgs trace iter fuel e msgs2 trace2 h
    rw [runLoop, h]
  · intro env c msgs trace h
    simp [stepIter, h]
  · intro env c msgs trace ch t hch hcalls hcontent
    simp [stepIter, hch, hcalls, hcontent]
  · intro env name args f e hmap hrun
    simp [execute_tool, hmap, hrun]
  · intro env name args origin ho hsrv hex
    unfold execute_tool
    rw [if_neg ho, if_pos hsrv, hex]

/-- A single-server environment with no executor, used by the witness. -/
def envRemote : CallEnv :=
  { schemas := [{ func := { name := "fetch", description := "",
                            parameters := "" }, origin := "srv" }]
    tool_map := fun _ => none
    mcp_server_names := ["srv"]
    user_choice := none
    tool_executor := none
    json_decode := jsonDecodeOk }

/-- Witness instantiating `c6_exception_aborts` at concrete inputs:
an empty-choices completion aborts the loop with the protocol error, and
the remaining exception sites produce their `errored` outcomes. -/
theorem c6_exception_aborts_witness :
    runLoop envRemote (fun _ => { choices := [] }) [] [] 0 2 =
        ("An error occurred: Model returned an empty response.", [], [], 1) ∧
      stepIter envRemote { choices := [] } [] [] =
        ([], [], IterOut.errored "Model returned an empty response.") ∧
      stepIter envRemote
          { choices := [{ content := some "", tool_calls := [] }] } [] [] =
        ([], [], IterOut.errored "Agent did not return a response content.") ∧
      execute_tool
          { envRemote with tool_map := fun _ => some (fun _ => Except.error "boom") }
          "fetch" "" "local" =
        ([("fetch", "local")], Except.error "boom") ∧
      execute_tool envRemote "fetch" "" "srv" =
        ([], Except.error "tool_executor is required for MCP tool calls") := by
  refine ⟨?_, ?_, ?_, ?_, ?_⟩
  · exact c6_exception_aborts.1 envRemote (fun _ => { choices := [] }) [] []
      0 1 _ [] [] (c6_exception_aborts.2.1 envRemote _ [] [] rfl)
  · exact c6_exception_aborts.2.1 envRemote _ [] [] rfl
  · exact c6_exception_aborts.2.2.1 envRemote _ [] [] _ [] rfl rfl rfl
  · exact c6_exception_aborts.2.2.2.1 _ "fetch" "" _ "boom" rfl rfl
  · exact c6_exception_aborts.2.2.2.2 envRemote "fetch" "" "srv" (by decide)
      (by decide) rfl


/-- C7 (confirmed).  In an iteration whose completion carries tool calls,
the assistant message preserving the full call list (id, name, arguments)
is appended before any call is dispatched, and then the calls of the batch
are handled strictly in emission order, appending exactly one tool-role
message per handled call; the handled calls form a prefix of the batch
(execution is sequential — a failure stops the batch — and when the
iteration ends normally the prefix is the whole batch). -/
theorem c7_batch_order (env : CallEnv) (completion : Completion)
    (msgs : List Message) (trace : List (String × String)) (ch : Choice)
    (t : List Choice)
    (hch : completion.choices = ch :: t) (hne : ch.tool_calls ≠ []) :
    ∃ pre post,
      ch.tool_calls = pre ++ post ∧
      (∀ tc ∈ pre, (callRes env tc).2.isOk) ∧
      (stepIter env completion msgs trace).1 =
        msgs ++ [Message.assistant ch.content ch.tool_calls] ++
          pre.map (fun tc => Message.tool tc.id (callResultStr env tc)) ∧
      ((stepIter env completion msgs trace).2.2 = IterOut.next → post = []) := by
  have hiter : stepIter env completion msgs trace =
      match processCalls env ch.tool_calls
          (msgs ++ [Message.assistant ch.content ch.tool_calls]) trace with
      | (msgs2, trace2, some e) => (msgs2, trace2, IterOut.errored e)
      | (msgs2, trace2, none) => (msgs2, trace2, IterOut.next) := by
    simp only [stepIter, hch]
    rw [if_neg (by simpa using hne)]
  rcases processCalls_prefix env ch.tool_calls
      (msgs ++ [Message.assistant ch.content ch.tool_calls]) trace with
    ⟨pre, post, o, tr, heq, hok, hpc, himp⟩
  rw [hpc] at hiter
  cases o with
  | none =>
    exact ⟨pre, post, heq, hok, by rw [hiter], fun _ => himp rfl⟩
  | some e =>
    refine ⟨pre, post, heq, hok, by rw [hiter], ?_⟩
    rw [hiter]
    intro h
    exact absurd h (by simp)

/-- Environment for the C7 witness: one bound local tool `echo` plus a
call to the unknown `ghost`. -/
def envEcho : CallEnv :=
  { schemas := [{ func := { name := "echo", description := "",
                            parameters := "" }, origin := "local" }]
    tool_map := fun n => if n = "echo" then some (fun a => Except.ok a)
      else none
    mcp_server_names := []
    user_choice := none
    tool_executor := none
    json_decode := jsonDecodeOk }

/-- The two-call assistant turn used by the C7 witness. -/
def chEcho : Choice :=
  { content := none
    tool_calls := [{ id := "c1", name := "echo", arguments := "x" },
                   { id := "c2", name := "ghost", arguments := "y" }] }

/-- Witness instantiating `c7_batch_order` on a concrete two-call batch. -/
theorem c7_batch_order_witness :
    ∃ pre post,
      chEcho.tool_calls = pre ++ post ∧
      (∀ tc ∈ pre, (callRes envEcho tc).2.isOk) ∧
      (stepIter envEcho { choices := [chEcho] } [] []).1 =
        [] ++ [Message.assistant chEcho.content chEcho.tool_calls] ++
          pre.map (fun tc => Message.tool tc.id (callResultStr envEcho tc)) ∧
      ((stepIter envEcho { choices := [chEcho] } [] []).2.2 = IterOut.next →
        post = []) :=
  c7_batch_order envEcho { choices := [chEcho] } [] [] chEcho [] rfl (by decide)

/-! ### Origin aggregation and resolution (claims C8, C10) -/

theorem originsOf_append (a b : List ToolSchema) (name : String) :
    originsOf (a ++ b) name = originsOf a name ++ originsOf b name := by
  simp [originsOf, List.filter_append]

theorem originsOf_flatMap {α : Type} (l : List α) (g : α → List ToolSchema)
    (name : String) :
    originsOf (l.flatMap g) name = l.flatMap (fun x => originsOf (g x) name) := by
  induction l with
  | nil => simp [originsOf]
  | cons a rest ih =>
    simp only [List.flatMap_cons, originsOf_append, ih]

theorem originsOf_server (fs : List FnSchema) (sname name : String) :
    originsOf (fs.map (fun f => ({ func := f, origin := sname } : ToolSchema)))
        name =
      (fs.filter (fun f => f.name = name)).map (fun _ => sname) := by
  unfold originsOf
  rw [List.filter_map, List.map_map]
  rfl

theorem mem_local_tool_schemas_origin {ag : ChatAgent} {s : ToolSchema}
    (h : s ∈ local_tool_schemas ag) : s.origin = "local" := by
  unfold local_tool_schemas at h
  cases htm : ag.tool_manager with
  | some tm =>
    rw [htm] at h
    simp only [] at h
    rcases List.mem_map.mp h with ⟨x, _, rfl⟩
    rfl
  | none =>
    rw [htm] at h
    simp only [] at h
    rcases List.mem_map.mp h with ⟨x, _, rfl⟩
    rfl

theorem mem_originsOf_local {ag : ChatAgent} {n o : String}
    (h : o ∈ originsOf (local_tool_schemas ag) n) : o = "local" := by
  unfold originsOf at h
  rcases List.mem_map.mp h with ⟨s, hs, rfl⟩
  exact mem_local_tool_schemas_origin (List.mem_filter.mp hs).1

/-- C8 (confirmed).  Origin resolution is deterministic: with no resolver
callback, the chosen origin is `origins[0]`; the `origins` list for a name
is the local origins followed by the remote origins; every local origin is
the tag `"local"` (local tool schemas precede remote-server schemas in
aggregation); and the remote origins list one entry per advertising server,
in configured server order.  All functions involved are pure, so the choice
is reproducible across runs with identical registration order. -/
theorem c8_origin_resolution :
    (∀ (env : CallEnv) (name : String) (origins : List String),
        env.user_choice = none →
        chooseOrigin env name origins = origins.headD "") ∧
    (∀ (ag : ChatAgent) (name : String),
        originsOf (aggregate_tools ag) name =
          originsOf (local_tool_schemas ag) name ++
            originsOf (mcp_tool_schemas ag) name) ∧
    (∀ (ag : ChatAgent) (name o : String),
        o ∈ originsOf (local_tool_schemas ag) name → o = "local") ∧
    (∀ (ag : ChatAgent) (name : String),
        originsOf (mcp_tool_schemas ag) name =
          ag.mcp_servers.flatMap
            (fun p => (p.2.filter (fun f => f.name = name)).map
              (fun _ => p.1))) := by
  refine ⟨?_, ?_, ?_, ?_⟩
  · intro env name origins h
    unfold chooseOrigin
    rw [h]
  · intro ag name
    unfold aggregate_tools
    exact originsOf_append _ _ _
  · intro ag name o h
    exact mem_originsOf_local h
  · intro ag name
    unfold mcp_tool_schemas
    rw [originsOf_flatMap]
    have hfun : (fun (p : String × List FnSchema) =>
        originsOf (p.2.map (fun f => ({ func := f, origin := p.1 } : ToolSchema)))
          name) =
        fun p => (p.2.filter (fun f => f.name = name)).map (fun _ => p.1) :=
      funext (fun p => originsOf_server p.2 p.1 name)
    rw [hfun]

/-- An agent advertising `echo` both locally (legacy tools list) and from
the configured server `srv`. -/
def agMulti : ChatAgent :=
  { agFixture with
      tools := [{ name := "echo", description := "", parameters := "",
                  strict := true }]
      mcp_servers := [("srv", [{ name := "echo", description := "",
                                 parameters := "" }])] }

/-- Witness instantiating `c8_origin_resolution` at concrete inputs. -/
theorem c8_origin_resolution_witness :
    chooseOrigin envEcho "echo" ["local", "srv"] = ["local", "srv"].headD "" ∧
      originsOf (aggregate_tools agMulti) "echo" =
        originsOf (local_tool_schemas agMulti) "echo" ++
          originsOf (mcp_tool_schemas agMulti) "echo" ∧
      "local" = "local" ∧
      originsOf (mcp_tool_schemas agMulti) "echo" =
        agMulti.mcp_servers.flatMap
          (fun p => (p.2.filter (fun f => f.name = "echo")).map
            (fun _ => p.1)) :=
  ⟨c8_origin_resolution.1 envEcho "echo" ["local", "srv"] rfl,
   c8_origin_resolution.2.1 agMulti "echo",
   c8_origin_resolution.2.2.1 agMulti "echo" "local" (by decide),
   c8_origin_resolution.2.2.2 agMulti "echo"⟩


/-- C10 (corrected).  If a name is registered with the `ToolManager` and
currently loaded — so its schema is advertised to the model with origin
`"local"` — but no function is bound under that name in the agent\'s
`tool_map`, then a model call of that tool whose arguments string decodes
as JSON hits the unguarded `self.tool_map[name]` lookup: the resulting
`KeyError` (whose `str` is the quoted name) escapes `_execute_tool`, aborts
the entire `process_message` call with the generic
`"An error occurred: ..."` string, appends no tool-role result for the call
(unlike the zero-origin path), and executes no tool function.  The
decodability proviso is necessary: `json.loads(arguments)` runs before the
`tool_map` lookup, so undecodable arguments abort with the JSON
decode-error string instead of the `KeyError` string (see
`c10_counterexample`). -/
theorem c10_unbound_local_tool (ag : ChatAgent) (tm : ToolManager)
    (meta : ToolMeta) (user_input n kwargs : String)
    (tool_executor : Option (String → String → String → Except String String))
    (json_decode : String → Except String String)
    (completions : Nat → Completion) (ch : Choice) (t : List Choice)
    (tc : ToolCall)
    (htm : ag.tool_manager = some tm)
    (hreg : lookupName tm.registry n = some meta)
    (hdef : meta.definition.name = n)
    (hloaded : n ∈ tm.loaded_tools)
    (hmap : ag.tool_map n = none)
    (hch : (completions 0).choices = ch :: t)
    (hcalls : ch.tool_calls = [tc])
    (hname : tc.name = n)
    (hdec : json_decode tc.arguments = Except.ok kwargs)
    (hmax : 1 ≤ ag.max_iterations) :
    process_message ag user_input none tool_executor json_decode completions =
      ("An error occurred: \'" ++ n ++ "\'",
       { ag with
           messages := ag.messages ++
             [Message.user user_input, Message.assistant ch.content [tc]]
           current_iteration := 1 }, []) := by
  -- the definition is active, so a local schema advertises the name
  have hactive : meta.definition ∈ tm.get_active_tools :=
    List.mem_filterMap.mpr ⟨n, hloaded, by rw [hreg]; rfl⟩
  have hschema :
      ({ func := { name := meta.definition.name
                   description := meta.definition.description
                   parameters := meta.definition.parameters }
         origin := "local" } : ToolSchema) ∈ local_tool_schemas ag := by
    unfold local_tool_schemas
    rw [htm]
    exact List.mem_map_of_mem _ (List.mem_cons_of_mem _ hactive)
  have hlocalmem : "local" ∈ originsOf (local_tool_schemas ag) n := by
    unfold originsOf
    refine List.mem_map.mpr ⟨_, List.mem_filter.mpr ⟨hschema, ?_⟩, rfl⟩
    simpa using hdef
  have hne : originsOf (local_tool_schemas ag) n ≠ [] :=
    List.ne_nil_of_mem hlocalmem
  have hagg : originsOf (aggregate_tools ag) n =
      originsOf (local_tool_schemas ag) n ++
        originsOf (mcp_tool_schemas ag) n := by
    unfold aggregate_tools
    exact originsOf_append _ _ _
  have hheadlocal : (originsOf (aggregate_tools ag) n).headD "" = "local" := by
    rw [hagg]
    rcases hL : originsOf (local_tool_schemas ag) n with _ | ⟨a, L⟩
    · exact absurd hL hne
    · have : a = "local" :=
        mem_originsOf_local (hL ▸ List.mem_cons_self a L)
      simp [this]
  have haggne : originsOf (aggregate_tools ag) n ≠ [] := by
    rw [hagg]
    simp [hne]
  have hchoose : chooseOrigin (mkEnv ag none tool_executor json_decode) n
      (originsOf (aggregate_tools ag) n) = "local" := by
    unfold chooseOrigin mkEnv
    exact hheadlocal
  have hex : execute_tool (mkEnv ag none tool_executor json_decode) n kwargs
      "local" = ([], Except.error ("\'" ++ n ++ "\'")) := by
    unfold execute_tool mkEnv
    rw [if_pos rfl]
    simp only []
    rw [hmap]
  have hpc : ∀ M : List Message,
      processCalls (mkEnv ag none tool_executor json_decode) [tc] M [] =
        (M, [], some ("\'" ++ n ++ "\'")) := by
    intro M
    simp only [processCalls, hname]
    rw [show (mkEnv ag none tool_executor json_decode).json_decode =
      json_decode from rfl]
    rw [hdec]
    simp only []
    rw [show (mkEnv ag none tool_executor json_decode).schemas =
      aggregate_tools ag from rfl]
    rw [if_neg (by simpa using haggne)]
    rw [hchoose, hex]
    simp
  have hstep : stepIter (mkEnv ag none tool_executor json_decode)
      (completions 0)
      (ag.messages ++ [Message.user user_input]) [] =
      (ag.messages ++ [Message.user user_input] ++
          [Message.assistant ch.content [tc]], [],
       IterOut.errored ("\'" ++ n ++ "\'")) := by
    simp only [stepIter, hch, hcalls]
    rw [if_neg (by simp)]
    rw [hpc]
  obtain ⟨m, hm⟩ : ∃ m, ag.max_iterations = m + 1 :=
    ⟨ag.max_iterations - 1, by omega⟩
  simp only [process_message, hm, runLoop, hstep]
  have hstr : "An error occurred: " ++ ("\'" ++ n ++ "\'") =
      "An error occurred: \'" ++ n ++ "\'" := by
    rw [← String.append_assoc, ← String.append_assoc]
    exact rfl
  rw [hstr]
  simp [List.append_assoc]


/-- Registry entry of `create_page` as stored by `register_tool`. -/
def metaCreatePage : ToolMeta :=
  { definition := create_page_tool
    keywords := ["create page"]
    category := "general"
    description := "Create a new page in the application sidebar." }

/-- A manager with `create_page` registered and loaded. -/
def tmLoadedCreatePage : ToolManager :=
  ((ToolManager.init none).register_tool "create_page" create_page_tool
      ["create page"] "general" false).load_tools ["create_page"]

/-- An agent advertising `create_page` through its tool manager while its
`tool_map` binds nothing. -/
def agUnbound : ChatAgent :=
  { agFixture with tool_manager := some tmLoadedCreatePage }

/-- The model turn calling `create_page`, used by the C10 witness. -/
def chCreatePage : Choice :=
  { content := none
    tool_calls := [{ id := "c1", name := "create_page", arguments := "" }] }

/-- Witness instantiating `c10_unbound_local_tool` on a concrete run with
decodable arguments. -/
theorem c10_unbound_local_tool_witness :
    process_message agUnbound "make a page" none none jsonDecodeOk
        (fun _ => { choices := [chCreatePage] }) =
      ("An error occurred: \'" ++ "create_page" ++ "\'",
       { agUnbound with
           messages := agUnbound.messages ++
             [Message.user "make a page",
              Message.assistant chCreatePage.content
                [{ id := "c1", name := "create_page", arguments := "" }]]
           current_iteration := 1 }, []) :=
  c10_unbound_local_tool agUnbound tmLoadedCreatePage metaCreatePage
    "make a page" "create_page" "" none jsonDecodeOk
    (fun _ => { choices := [chCreatePage] })
    chCreatePage [] { id := "c1", name := "create_page", arguments := "" }
    rfl (by decide) rfl (by decide) rfl rfl rfl rfl rfl (by decide)

/-- C10 counterexample: the same advertised-but-unbound `create_page`
scenario, but the call carries the undecodable arguments string `""`:
`json.loads` raises before the `tool_map` lookup is ever reached, so the
run aborts with the JSON decode-error string and not with the `KeyError`
string the claim asserts. -/
theorem c10_counterexample :
    agUnbound.tool_map "create_page" = none ∧
      (process_message agUnbound "make a page" none none jsonDecodeEmptyFails
          (fun _ => { choices := [chCreatePage] })).1 =
        "An error occurred: Expecting value: line 1 column 1 (char 0)" ∧
      (process_message agUnbound "make a page" none none jsonDecodeEmptyFails
          (fun _ => { choices := [chCreatePage] })).1 ≠
        "An error occurred: \'create_page\'" := by
  refine ⟨rfl, by decide, by decide⟩

end StreamlitUI
